import Mathlib

/-!
Shallow embedding of the `review` tool (`src/review/src/main.rs`): argument
parsing, branch-name construction, PR checkout as a transition on an explicit
git state, package installation over an explicit file tree with an abstract
glob matcher, and the install/test driver loops, together with theorems about
them.
-/

set_option maxHeartbeats 1000000

namespace Review

/-! ### Definitions -/

def natToDecCore : Nat → Nat → List Char → List Char
  | 0, _, acc => acc
  | fuel + 1, n, acc =>
    let acc1 := Nat.digitChar (n % 10) :: acc
    if n < 10 then acc1 else natToDecCore fuel (n / 10) acc1

def natRepr (n : Nat) : String := ⟨natToDecCore (n + 1) n []⟩

instance {ε α : Type} [DecidableEq ε] [DecidableEq α] : DecidableEq (Except ε α)
  | .ok a, .ok b =>
    if h : a = b then .isTrue (by rw [h]) else .isFalse (by intro hc; cases hc; exact h rfl)
  | .error a, .error b =>
    if h : a = b then .isTrue (by rw [h]) else .isFalse (by intro hc; cases hc; exact h rfl)
  | .ok _, .error _ => .isFalse (by intro hc; cases hc)
  | .error _, .ok _ => .isFalse (by intro hc; cases hc)

structure Package where
  name : String
  vers : String
deriving DecidableEq

structure Args where
  packages : List Package
  pr_nr : Nat
deriving DecidableEq

/-- The `name_vers` token written for one package in `Args::branch_name`. -/
def Package.token (p : Package) : String := p.name ++ "_" ++ p.vers

/-- The comma-separated token list built by the loop in `Args::branch_name`. -/
def branchTokens : List Package → String
  | [] => ""
  | [p] => p.token
  | p :: q :: rest => p.token ++ "," ++ branchTokens (q :: rest)

/-- `Args::branch_name` (main.rs lines 22-33). -/
def Args.branch_name (a : Args) : String :=
  branchTokens a.packages ++ "_#" ++ natRepr a.pr_nr

/-- `str::trim_end_matches(',')` on the reversed character list. -/
def trimCommaAux : List Char → List Char
  | ',' :: rest => trimCommaAux rest
  | l => l

/-- `arg.trim_end_matches(',')`: removes every trailing comma. -/
def trimTrailingCommas (s : String) : String := ⟨(trimCommaAux s.data.reverse).reverse⟩

def splitOnceAux (c : Char) : List Char → Option (List Char × List Char)
  | [] => none
  | x :: xs =>
    if x = c then some ([], xs)
    else (splitOnceAux c xs).map (fun r => (x :: r.1, r.2))

/-- `str::split_once`: split at the first occurrence of `c`. -/
def splitOnce (s : String) (c : Char) : Option (String × String) :=
  (splitOnceAux c s.data).map (fun r => (⟨r.1⟩, ⟨r.2⟩))

/-- `pr_nr.strip_prefix("#")`. -/
def stripHash (s : String) : Option String :=
  match s.data with
  | [] => none
  | c :: rest => if c = '#' then some ⟨rest⟩ else none

/-- One step of base-10 accumulation over a digit character. -/
def decValFold (acc : Nat) (c : Char) : Nat := 10 * acc + (c.toNat - 48)

/-- `str::parse::<u32>`: an optional leading `+` followed by a non-empty
all-digit string whose base-10 value fits in 32 unsigned bits. -/
def parseU32 (s : String) : Option Nat :=
  let digits :=
    match s.data with
    | [] => ([] : List Char)
    | c :: rest => if c = '+' then rest else c :: rest
  if digits = [] then none
  else if digits.all Char.isDigit then
    let n := digits.foldl decValFold 0
    if n < 4294967296 then some n else none
  else none

/-- The package-token loop of `parse_args` (main.rs lines 145-156). -/
def parsePkgTokens : List String → Except String (List Package)
  | [] => .ok []
  | arg :: rest =>
    let arg1 := trimTrailingCommas arg
    if arg1 = "and" then parsePkgTokens rest
    else
      match splitOnce arg1 ':' with
      | none => .error ("package name and version must be separated by `:` - `" ++ arg1 ++ "`")
      | some (name, vers) =>
        match parsePkgTokens rest with
        | .error e => .error e
        | .ok pkgs => .ok (Package.mk name vers :: pkgs)

/-- `parse_args` (main.rs lines 133-159): split off the last token, strip the
`#` marker, parse the PR number, then parse the package tokens. -/
def parse_args (args : List String) : Except String Args :=
  if args.length < 2 then .error "expected at least one package and the PR number"
  else
    match args.reverse with
    | [] => .error "expected at least one package and the PR number"
    | last :: revInit =>
      match stripHash last with
      | none => .error ("PR number must start with `#` - `" ++ last ++ "`")
      | some prStr =>
        match parseU32 prStr with
        | none => .error ("PR number is not valid - `" ++ prStr ++ "`")
        | some pr =>
          match parsePkgTokens revInit.reverse with
          | .error e => .error e
          | .ok pkgs => .ok ⟨pkgs, pr⟩

/-- Base-10 value of a digit-character list. -/
def decVal (l : List Char) : Nat := l.foldl decValFold 0

/-- Commits are identified abstractly by their object id. -/
abbrev Commit := Nat

/-- The mutable git state touched by `checkout_pr`: the head's full reference
name as `Reference::name()` returns it (`refs/heads/<branch>` for a checked
out branch), the local branches (by their short names, as `Branch::name()`
returns them), and the remote's `pull/<nr>/head` refs. -/
structure GitState where
  head : String
  branches : List (String × Commit)
  remote : List (Nat × Commit)
deriving DecidableEq

/-- The full reference name of a local branch, as git materializes it. -/
def refName (branch : String) : String := "refs/heads/" ++ branch

inductive GitError where
  | revparseFailed
  | fetchFailed
deriving DecidableEq

/-- Observable git operations performed by `checkout_pr`. -/
inductive Event where
  | checkoutBranch (name : String)
  | deleteBranch (name : String)
  | fetch (pr : Nat)
  | createBranch (name : String) (c : Commit)
deriving DecidableEq

def hasBranch (l : List (String × Commit)) (name : String) : Bool :=
  l.any (fun b => b.1 == name)

/-- The branch-deletion loop (main.rs 172-180): delete the first branch whose
name matches, then `break`. -/
def deleteBranch : List (String × Commit) → String → List (String × Commit)
  | [], _ => []
  | b :: rest, name => if b.1 == name then rest else b :: deleteBranch rest name

/-- `Repository::branch(name, commit, true)` (main.rs 200): create the branch,
overwriting a same-named ref. -/
def setBranch : List (String × Commit) → String → Commit → List (String × Commit)
  | [], name, c => [(name, c)]
  | b :: rest, name, c => if b.1 == name then (name, c) :: rest else b :: setBranch rest name c

/-- `origin.fetch`/`origin.list` for `pull/<nr>/head` (main.rs 183-196). -/
def lookupRemote : List (Nat × Commit) → Nat → Option Commit
  | [], _ => none
  | r :: rest, pr => if r.1 == pr then some r.2 else lookupRemote rest pr

/-- `checkout_branch` (main.rs 208-215): resolve the branch, update the
working tree, and `set_head` with the resolved reference's full name. -/
def checkout_branch (s : GitState) (name : String) : Except GitError GitState :=
  if hasBranch s.branches name then .ok { s with head := refName name }
  else .error .revparseFailed

/-- The body of `checkout_pr` after the primary-branch step (main.rs 171-205):
delete a stale session branch, fetch the PR head, create the branch at the
fetched commit (overwriting), and check it out. -/
def checkout_pr_sync (args : Args) (s1 : GitState) : List Event × Except GitError GitState :=
  let bn := args.branch_name
  if hasBranch s1.branches bn then
    let s2 : GitState := { s1 with branches := deleteBranch s1.branches bn }
    match lookupRemote s2.remote args.pr_nr with
    | none => ([.deleteBranch bn, .fetch args.pr_nr], .error .fetchFailed)
    | some c =>
      let s3 : GitState := { s2 with branches := setBranch s2.branches bn c }
      ([.deleteBranch bn, .fetch args.pr_nr, .createBranch bn c, .checkoutBranch bn],
        checkout_branch s3 bn)
  else
    match lookupRemote s1.remote args.pr_nr with
    | none => ([.fetch args.pr_nr], .error .fetchFailed)
    | some c =>
      let s3 : GitState := { s1 with branches := setBranch s1.branches bn c }
      ([.fetch args.pr_nr, .createBranch bn c, .checkoutBranch bn], checkout_branch s3 bn)

/-- `checkout_pr` (main.rs 161-206) as a transition on `GitState`, paired with
the trace of git operations attempted: check out `main` unless the head's
reference name equals `"main"` (the name compared is the full
`refs/heads/...` name, so against git the guard always fires), then run the
sync body. -/
def checkout_pr (args : Args) (s : GitState) : List Event × Except GitError GitState :=
  if s.head ≠ "main" then
    match checkout_branch s "main" with
    | .error e => ([.checkoutBranch "main"], .error e)
    | .ok s1 =>
      let r := checkout_pr_sync args s1
      (Event.checkoutBranch "main" :: r.1, r.2)
  else checkout_pr_sync args s

/-- The fields of the parsed `typst.toml` that the tool uses: the exclude
globs and the optional template entrypoint. -/
structure Manifest where
  exclude : List String
  template : Option String
deriving DecidableEq

inductive InstallError where
  | manifestMissing
  | manifestInvalid
  | invalidExcludePattern
  | invalidGlob
deriving DecidableEq

/-- An entry of the package's source tree: its path relative to the package
directory, whether it is a regular file, and its content. -/
structure SrcEntry where
  path : String
  isFile : Bool
  content : Nat
deriving DecidableEq

/-- `exclude.starts_with('!')`. -/
def startsWithBang (s : String) : Bool :=
  match s.data with
  | '!' :: _ => true
  | _ => false

/-- `exclude.trim_start_matches("./")`: repeatedly strip a leading `./`. -/
def trimDotSlashAux : List Char → List Char
  | '.' :: '/' :: rest => trimDotSlashAux rest
  | l => l

def trimDotSlash (s : String) : String := ⟨trimDotSlashAux s.data⟩

/-- The override-building loop (main.rs 235-244): a pattern starting with `!`
is rejected; otherwise a leading `./` is stripped and the inverted pattern is
added to the builder, which itself rejects invalid globs (`valid` stands for
the `ignore` crate's glob validation). -/
def buildExcludes (valid : String → Bool) : List String → Except InstallError (List String)
  | [] => .ok []
  | e :: rest =>
    if startsWithBang e then .error .invalidExcludePattern
    else
      let e1 := trimDotSlash e
      if valid e1 then
        match buildExcludes valid rest with
        | .error err => .error err
        | .ok pats => .ok (e1 :: pats)
      else .error .invalidGlob

/-- Whether the compiled override set excludes `path`: some pattern matches.
`m pat path` is the `ignore` crate's glob matcher (an external collaborator),
deciding whether the compiled exclude glob `pat` matches the relative path. -/
def excludedPath (m : String → String → Bool) (pats : List String) (path : String) : Bool :=
  pats.any (fun pat => m pat path)

/-- Exclusion phrased directly against the manifest's exclude list (leading
`./` stripped, as the builder compiles it). -/
def excludedBy (m : String → String → Bool) (excludes : List String) (path : String) : Bool :=
  excludes.any (fun e => m (trimDotSlash e) path)

/-- Split a relative path into its `/`-separated components. -/
def splitSlashAux : List Char → List Char → List (List Char)
  | [], acc => [acc.reverse]
  | '/' :: rest, acc => acc.reverse :: splitSlashAux rest []
  | c :: rest, acc => splitSlashAux rest (c :: acc)

/-- The `ignore` crate's hidden-entry test: the entry's name starts with a
dot. -/
def hiddenName : List Char → Bool
  | '.' :: _ => true
  | _ => false

/-- Whether the walk's default hidden-file filter drops this relative path:
some component of it is hidden (a skipped hidden directory prunes its whole
subtree, so every component counts). -/
def hiddenPath (path : String) : Bool :=
  (splitSlashAux path.data []).any hiddenName

/-- The filtered walk (main.rs 245, 257): `WalkBuilder` keeps its default
standard filters, so hidden entries are skipped and ignore-file rules
(`.gitignore`/`.ignore`/git exclude, abstracted as the predicate `ign` on
relative paths) are honored, and the override set built from the manifest
drops entries matching an exclude pattern. -/
def walkEntries (m : String → String → Bool) (ign : String → Bool) (pats : List String)
    (entries : List SrcEntry) : List SrcEntry :=
  entries.filter (fun e => !hiddenPath e.path && !ign e.path && !excludedPath m pats e.path)

/-- Does the target tree contain a file at `p`. -/
def hasFile (tgt : List (String × Nat)) (p : String) : Bool :=
  tgt.any (fun f => f.1 == p)

/-- `std::fs::copy` into the target tree: overwrite or create the file. -/
def setFile : List (String × Nat) → String → Nat → List (String × Nat)
  | [], p, c => [(p, c)]
  | f :: rest, p, c => if f.1 == p then (p, c) :: rest else f :: setFile rest p c

/-- The copy loop (main.rs 257-276): for each surviving walk entry, copy it
into the target tree when it is a regular file. -/
def copyFiles : List SrcEntry → List (String × Nat) → List (String × Nat)
  | [], tgt => tgt
  | e :: rest, tgt =>
    if e.isFile then copyFiles rest (setFile tgt e.path e.content)
    else copyFiles rest tgt

/-- `install_package` (main.rs 217-279) over an explicit filesystem.
`manifestFile` is the state of `typst.toml` (`none`: missing, `some none`:
unparsable, `some (some manifest)`: parsed); `entries` are the package
directory's entries; `prior` is the existing target tree, `none` when the
target directory does not exist. Returns the target tree after the call and
the result: parse the manifest, build the exclude overrides, remove the
existing target, then walk and copy the regular files. -/
def install_package (m : String → String → Bool) (ign : String → Bool)
    (valid : String → Bool) (manifestFile : Option (Option Manifest))
    (entries : List SrcEntry) (prior : Option (List (String × Nat))) :
    Option (List (String × Nat)) × Except InstallError Manifest :=
  match manifestFile with
  | none => (prior, .error .manifestMissing)
  | some none => (prior, .error .manifestInvalid)
  | some (some manifest) =>
    match buildExcludes valid manifest.exclude with
    | .error err => (prior, .error err)
    | .ok pats =>
      (some (copyFiles (walkEntries m ign pats entries) []), .ok manifest)

/-- The install phase `packages.iter().map(install_package).collect::<Result>`
(main.rs 115-117): sequential, stopping at the first error. Returns the
packages whose installation was attempted, in order, with the collected
result. -/
def installPhase (inst : Package → Except String Manifest) :
    List Package → List Package × Except String (List Manifest)
  | [] => ([], .ok [])
  | p :: rest =>
    match inst p with
    | .error e => ([p], .error e)
    | .ok man =>
      let r := installPhase inst rest
      (p :: r.1,
        match r.2 with
        | .error e => .error e
        | .ok ms => .ok (man :: ms))

/-- The test loop (main.rs 122-127): run the test for every pair, keeping the
first failure in `res`. Returns the executed (package, result) pairs in order
and the final latched result. -/
def testLoop (tst : Package → Manifest → Except String Unit) :
    List (Package × Manifest) → Except String Unit →
      List (Package × Except String Unit) × Except String Unit
  | [], res => ([], res)
  | (p, man) :: rest, res =>
    let r := tst p man
    let res1 := if res.isOk then r else res
    let rec1 := testLoop tst rest res1
    ((p, r) :: rec1.1, rec1.2)

/-- The `cmd.install()` branch of `run` (main.rs 113-128): install every
package, propagating the first install error; only when all succeed, test
each (package, manifest) pair. -/
def runInstallTest (inst : Package → Except String Manifest)
    (tst : Package → Manifest → Except String Unit) (pkgs : List Package) :
    Except String Unit :=
  match (installPhase inst pkgs).2 with
  | .error e => .error e
  | .ok ms => (testLoop tst (pkgs.zip ms) (.ok ())).2

/-- The first error of a result list, `.ok ()` when there is none. -/
def firstErr : List (Except String Unit) → Except String Unit
  | [] => .ok ()
  | .ok _ :: rest => firstErr rest
  | .error e :: _ => .error e

/-! ### Theorems -/

lemma natToDecCore_append : ∀ (fuel n : Nat) (acc : List Char), n < fuel →
    natToDecCore fuel n acc = natToDecCore fuel n [] ++ acc := by
  intro fuel
  induction fuel with
  | zero => intro n acc h; omega
  | succ f ih =>
    intro n acc h
    by_cases h10 : n < 10
    · simp [natToDecCore, h10]
    · have hdiv : n / 10 < n := Nat.div_lt_self (by omega) (by omega)
      have hlt : n / 10 < f := by omega
      simp only [natToDecCore, if_neg h10]
      rw [ih (n / 10) (Nat.digitChar (n % 10) :: acc) hlt,
        ih (n / 10) [Nat.digitChar (n % 10)] hlt]
      simp

lemma decVal_append_singleton (l : List Char) (c : Char) :
    decVal (l ++ [c]) = 10 * decVal l + (c.toNat - 48) := by
  simp [decVal, List.foldl_append, decValFold]

lemma digitChar_isDigit (d : Nat) (h : d < 10) : (Nat.digitChar d).isDigit = true := by
  interval_cases d <;> decide

lemma toNat_digitChar (d : Nat) (h : d < 10) : (Nat.digitChar d).toNat - 48 = d := by
  interval_cases d <;> decide

lemma decVal_natToDecCore : ∀ (fuel n : Nat), n < fuel →
    decVal (natToDecCore fuel n []) = n := by
  intro fuel
  induction fuel with
  | zero => intro n h; omega
  | succ f ih =>
    intro n h
    by_cases h10 : n < 10
    · have hmod : n % 10 = n := Nat.mod_eq_of_lt h10
      have hdig := toNat_digitChar n h10
      simp only [natToDecCore, if_pos h10, hmod, decVal, List.foldl, decValFold]
      omega
    · have hdiv : n / 10 < n := Nat.div_lt_self (by omega) (by omega)
      have hlt : n / 10 < f := by omega
      simp only [natToDecCore, if_neg h10]
      rw [natToDecCore_append f (n / 10) _ hlt, decVal_append_singleton, ih _ hlt,
        toNat_digitChar (n % 10) (Nat.mod_lt n (by omega))]
      omega

lemma natRepr_injective {m n : Nat} (h : natRepr m = natRepr n) : m = n := by
  have hdata : natToDecCore (m + 1) m [] = natToDecCore (n + 1) n [] :=
    congrArg String.data h
  have h1 := decVal_natToDecCore (m + 1) m (by omega)
  have h2 := decVal_natToDecCore (n + 1) n (by omega)
  rw [hdata, h2] at h1
  omega

lemma natToDecCore_digits : ∀ (fuel n : Nat) (acc : List Char),
    (∀ c ∈ acc, c.isDigit = true) → ∀ c ∈ natToDecCore fuel n acc, c.isDigit = true := by
  intro fuel
  induction fuel with
  | zero => intro n acc hacc; simpa [natToDecCore] using hacc
  | succ f ih =>
    intro n acc hacc c hc
    have hacc1 : ∀ x ∈ Nat.digitChar (n % 10) :: acc, x.isDigit = true := by
      intro x hx
      rcases List.mem_cons.mp hx with hx | hx
      · rw [hx]; exact digitChar_isDigit _ (Nat.mod_lt n (by omega))
      · exact hacc x hx
    by_cases h10 : n < 10
    · simp only [natToDecCore, if_pos h10] at hc
      exact hacc1 c hc
    · simp only [natToDecCore, if_neg h10] at hc
      exact ih (n / 10) _ hacc1 c hc

lemma natRepr_digits (n : Nat) : ∀ c ∈ (natRepr n).data, c.isDigit = true :=
  natToDecCore_digits (n + 1) n [] (by simp)

lemma branch_name_data (a : Args) :
    (a.branch_name).data =
      ((branchTokens a.packages).data ++ ['_']) ++ '#' :: (natRepr a.pr_nr).data := by
  simp [Args.branch_name, String.data_append]

lemma hash_mem_branch_name (a : Args) : '#' ∈ (a.branch_name).data := by
  rw [branch_name_data]
  simp

lemma branch_name_ne_main (a : Args) : a.branch_name ≠ "main" := by
  intro h
  have hmem := hash_mem_branch_name a
  rw [h] at hmem
  exact absurd hmem (by decide)

lemma takeWhile_append_eq (p : Char → Bool) :
    ∀ (l : List Char) (x : Char) (rest : List Char),
      (∀ a ∈ l, p a = true) → p x = false → (l ++ x :: rest).takeWhile p = l := by
  intro l
  induction l with
  | nil => intro x rest _ hx; simp [List.takeWhile_cons, hx]
  | cons a l ih =>
    intro x rest hall hx
    have ha : p a = true := hall a (by simp)
    simp only [List.cons_append, List.takeWhile_cons, ha, if_pos]
    rw [ih x rest (fun b hb => hall b (by simp [hb])) hx]

lemma digit_not_hash {c : Char} (h : c.isDigit = true) : (!(c == '#')) = true := by
  by_cases hc : c = '#'
  · rw [hc] at h; exact absurd h (by decide)
  · simp [hc]

/-- Aligning at the last `#`: if two character lists agree and each has the
shape `tokens ++ '#' :: digits`, the digit parts agree. -/
lemma decimal_suffix_eq (t1 t2 d1 d2 : List Char)
    (hd1 : ∀ c ∈ d1, c.isDigit = true) (hd2 : ∀ c ∈ d2, c.isDigit = true)
    (h : t1 ++ '#' :: d1 = t2 ++ '#' :: d2) : d1 = d2 := by
  have hrev := congrArg List.reverse h
  simp only [List.reverse_append, List.reverse_cons, List.append_assoc,
    List.singleton_append] at hrev
  have e1 : (d1.reverse ++ '#' :: t1.reverse).takeWhile (fun c => !(c == '#')) = d1.reverse :=
    takeWhile_append_eq _ _ _ _
      (fun a ha => digit_not_hash (hd1 a (List.mem_reverse.mp ha))) (by decide)
  have e2 : (d2.reverse ++ '#' :: t2.reverse).takeWhile (fun c => !(c == '#')) = d2.reverse :=
    takeWhile_append_eq _ _ _ _
      (fun a ha => digit_not_hash (hd2 a (List.mem_reverse.mp ha))) (by decide)
  rw [hrev, e2] at e1
  have hfin := congrArg List.reverse e1
  simp at hfin
  exact hfin.symm

/-- Equal branch names force equal PR numbers. -/
lemma branch_name_eq_pr_eq {a1 a2 : Args} (h : a1.branch_name = a2.branch_name) :
    a1.pr_nr = a2.pr_nr := by
  have hdata := congrArg String.data h
  rw [branch_name_data, branch_name_data] at hdata
  have hD := decimal_suffix_eq _ _ _ _ (natRepr_digits a1.pr_nr) (natRepr_digits a2.pr_nr) hdata
  exact natRepr_injective (String.ext hD)

@[simp] lemma hasBranch_nil (n : String) : hasBranch [] n = false := rfl

@[simp] lemma hasBranch_cons (b : String × Commit) (rest : List (String × Commit)) (n : String) :
    hasBranch (b :: rest) n = ((b.1 == n) || hasBranch rest n) := rfl

lemma hasBranch_iff (l : List (String × Commit)) (n : String) :
    hasBranch l n = true ↔ n ∈ l.map Prod.fst := by
  induction l with
  | nil => simp
  | cons b rest ih =>
    rw [hasBranch_cons, List.map_cons, List.mem_cons, Bool.or_eq_true, beq_iff_eq, ih]
    constructor
    · rintro (h | h)
      · exact Or.inl h.symm
      · exact Or.inr h
    · rintro (h | h)
      · exact Or.inl h.symm
      · exact Or.inr h

lemma hasBranch_setBranch_self (l : List (String × Commit)) (n : String) (c : Commit) :
    hasBranch (setBranch l n c) n = true := by
  induction l with
  | nil => simp [setBranch]
  | cons b rest ih =>
    by_cases hb : b.1 = n
    · simp [setBranch, hb]
    · simp [setBranch, hb, ih]

lemma hasBranch_setBranch_ne {m n : String} (hmn : m ≠ n) (l : List (String × Commit))
    (c : Commit) : hasBranch (setBranch l n c) m = hasBranch l m := by
  induction l with
  | nil =>
    simp only [setBranch, hasBranch_cons, hasBranch_nil, Bool.or_false]
    exact beq_eq_false_iff_ne.mpr (fun h => hmn h.symm)
  | cons b rest ih =>
    by_cases hb : b.1 = n
    · simp only [setBranch, hb, beq_self_eq_true, if_true, hasBranch_cons]
    · rw [show setBranch (b :: rest) n c = b :: setBranch rest n c by simp [setBranch, hb]]
      rw [hasBranch_cons, hasBranch_cons, ih]

lemma hasBranch_deleteBranch_ne {m n : String} (hmn : m ≠ n) (l : List (String × Commit)) :
    hasBranch (deleteBranch l n) m = hasBranch l m := by
  induction l with
  | nil => simp [deleteBranch]
  | cons b rest ih =>
    by_cases hb : b.1 = n
    · have hnm : (n == m) = false := beq_eq_false_iff_ne.mpr (fun h => hmn h.symm)
      simp [deleteBranch, hb, hnm]
    · simp [deleteBranch, hb, ih]

lemma deleteBranch_of_not_hasBranch {l : List (String × Commit)} {n : String}
    (h : hasBranch l n = false) : deleteBranch l n = l := by
  induction l with
  | nil => rfl
  | cons b rest ih =>
    rw [hasBranch_cons, Bool.or_eq_false_iff] at h
    simp [deleteBranch, h.1, ih h.2]

lemma not_hasBranch_deleteBranch {l : List (String × Commit)} {n : String}
    (hnd : (l.map Prod.fst).Nodup) : hasBranch (deleteBranch l n) n = false := by
  induction l with
  | nil => rfl
  | cons b rest ih =>
    simp only [List.map_cons, List.nodup_cons] at hnd
    by_cases hb : b.1 = n
    · simp only [deleteBranch, hb, beq_self_eq_true, if_true]
      rw [Bool.eq_false_iff]
      intro hc
      apply hnd.1
      rw [hb]
      exact (hasBranch_iff rest n).mp hc
    · simp [deleteBranch, hb, ih hnd.2]

lemma setBranch_of_not_hasBranch {l : List (String × Commit)} {n : String} (c : Commit)
    (h : hasBranch l n = false) : setBranch l n c = l ++ [(n, c)] := by
  induction l with
  | nil => rfl
  | cons b rest ih =>
    rw [hasBranch_cons, Bool.or_eq_false_iff] at h
    simp [setBranch, h.1, ih h.2]

lemma deleteBranch_append_self {l : List (String × Commit)} {n : String} (c : Commit)
    (h : hasBranch l n = false) : deleteBranch (l ++ [(n, c)]) n = l := by
  induction l with
  | nil => simp [deleteBranch]
  | cons b rest ih =>
    rw [hasBranch_cons, Bool.or_eq_false_iff] at h
    simp [deleteBranch, h.1, ih h.2]

lemma setBranch_deleteBranch_idem (B : List (String × Commit)) (bn : String) (c : Commit)
    (hnd : (B.map Prod.fst).Nodup) :
    setBranch (deleteBranch (setBranch (deleteBranch B bn) bn c) bn) bn c =
      setBranch (deleteBranch B bn) bn c := by
  have hD : hasBranch (deleteBranch B bn) bn = false := not_hasBranch_deleteBranch hnd
  rw [setBranch_of_not_hasBranch c hD, deleteBranch_append_self c hD]
  exact setBranch_of_not_hasBranch c hD

lemma checkout_branch_run {s : GitState} {n : String} (h : hasBranch s.branches n = true) :
    checkout_branch s n = .ok { s with head := refName n } := by
  rw [checkout_branch, if_pos h]

lemma checkout_branch_ok {s t : GitState} {n : String} (h : checkout_branch s n = .ok t) :
    t = { s with head := refName n } ∧ hasBranch s.branches n = true := by
  by_cases hc : hasBranch s.branches n = true
  · rw [checkout_branch, if_pos hc] at h
    exact ⟨(Except.ok.inj h).symm, hc⟩
  · rw [checkout_branch, if_neg hc] at h
    simp at h

/-- The final state of a successful sync body, independent of whether a stale
branch had to be deleted first. -/
lemma checkout_pr_sync_run (args : Args) (s1 : GitState) :
    (checkout_pr_sync args s1).2 =
      match lookupRemote s1.remote args.pr_nr with
      | none => .error .fetchFailed
      | some c => .ok ⟨refName args.branch_name,
          setBranch (deleteBranch s1.branches args.branch_name) args.branch_name c,
          s1.remote⟩ := by
  simp only [checkout_pr_sync]
  by_cases hb : hasBranch s1.branches args.branch_name = true
  · rw [if_pos hb]
    cases hlk : lookupRemote s1.remote args.pr_nr with
    | none => rfl
    | some c =>
      dsimp only
      exact checkout_branch_run (hasBranch_setBranch_self _ _ _)
  · rw [if_neg hb]
    have hf : hasBranch s1.branches args.branch_name = false := by
      cases hx : hasBranch s1.branches args.branch_name
      · rfl
      · exact absurd hx hb
    rw [deleteBranch_of_not_hasBranch hf]
    cases hlk : lookupRemote s1.remote args.pr_nr with
    | none => rfl
    | some c =>
      dsimp only
      exact checkout_branch_run (hasBranch_setBranch_self _ _ _)

/-- Eliminating a successful `checkout_pr`: the fetch succeeded and the final
state is head at the session branch, branches updated, remote untouched. -/
lemma checkout_pr_ok_elim {args : Args} {s s1 : GitState}
    (h : (checkout_pr args s).2 = .ok s1) :
    ∃ c, lookupRemote s.remote args.pr_nr = some c ∧
      s1 = ⟨refName args.branch_name,
        setBranch (deleteBranch s.branches args.branch_name) args.branch_name c,
        s.remote⟩ := by
  by_cases hh : s.head = "main"
  · rw [checkout_pr, if_neg (not_not_intro hh)] at h
    rw [checkout_pr_sync_run] at h
    cases hlk : lookupRemote s.remote args.pr_nr with
    | none => rw [hlk] at h; simp at h
    | some c =>
      rw [hlk] at h
      exact ⟨c, rfl, (Except.ok.inj h).symm⟩
  · rw [checkout_pr, if_pos hh] at h
    cases hcb : checkout_branch s "main" with
    | error e => rw [hcb] at h; simp at h
    | ok t =>
      rw [hcb] at h
      obtain ⟨ht, -⟩ := checkout_branch_ok hcb
      subst ht
      dsimp only at h
      rw [checkout_pr_sync_run] at h
      cases hlk : lookupRemote s.remote args.pr_nr with
      | none =>
        rw [show ({ s with head := refName "main" } : GitState).remote = s.remote from rfl,
          hlk] at h
        simp at h
      | some c =>
        rw [show ({ s with head := refName "main" } : GitState).remote = s.remote from rfl,
          hlk] at h
        exact ⟨c, rfl, (Except.ok.inj h).symm⟩

/-- Running `checkout_pr` when the fetch succeeds and `main` is available. -/
lemma checkout_pr_run {args : Args} {s : GitState} {c : Commit}
    (hmain : s.head = "main" ∨ hasBranch s.branches "main" = true)
    (hlk : lookupRemote s.remote args.pr_nr = some c) :
    (checkout_pr args s).2 = .ok ⟨refName args.branch_name,
      setBranch (deleteBranch s.branches args.branch_name) args.branch_name c,
      s.remote⟩ := by
  by_cases hh : s.head = "main"
  · rw [checkout_pr, if_neg (not_not_intro hh), checkout_pr_sync_run, hlk]
  · have hmb : hasBranch s.branches "main" = true := hmain.resolve_left hh
    rw [checkout_pr, if_pos hh, checkout_branch_run hmb]
    dsimp only
    rw [checkout_pr_sync_run]
    rw [show ({ s with head := refName "main" } : GitState).remote = s.remote from rfl, hlk]

/-- A full `refs/heads/...` reference name never equals the short name
`"main"`. -/
lemma refName_ne_main (b : String) : refName b ≠ "main" := by
  intro h
  have hlen := congrArg (fun t : String => t.data.length) h
  simp only [refName, String.data_append, List.length_append] at hlen
  have h11 : ("refs/heads/" : String).data.length = 11 := by decide
  have h4 : ("main" : String).data.length = 4 := by decide
  rw [h11, h4] at hlen
  omega

/-- C9: contrary to the claim, the checkout of the primary branch `main` is
performed on every run, even when the repository's head already is `main`:
the guard compares the head's full reference name (`refs/heads/...`) with
`"main"`, which never matches. -/
theorem checkout_main_always (args : Args) (s : GitState) (b : String)
    (hs : s.head = refName b) :
    Event.checkoutBranch "main" ∈ (checkout_pr args s).1 := by
  have hh : s.head ≠ "main" := by rw [hs]; exact refName_ne_main b
  rw [checkout_pr, if_pos hh]
  cases hcb : checkout_branch s "main" with
  | error e => simp
  | ok t => simp

theorem checkout_main_always_witness :
    (⟨"refs/heads/main", [("main", 3)], [(5, 7)]⟩ : GitState).head = refName "main" ∧
      Event.checkoutBranch "main" ∈
        (checkout_pr ⟨[⟨"foo", "1.0.0"⟩], 5⟩
          ⟨"refs/heads/main", [("main", 3)], [(5, 7)]⟩).1 :=
  ⟨by decide, checkout_main_always ⟨[⟨"foo", "1.0.0"⟩], 5⟩
    ⟨"refs/heads/main", [("main", 3)], [(5, 7)]⟩ "main" (by decide)⟩

/-- C2: re-running `checkout_pr` for the same session against the unmodified
remote succeeds again (the stale branch is deleted, creation overwrites) and
reproduces exactly the state the first run ended in. -/
theorem checkout_pr_idempotent (args : Args) (s s1 : GitState)
    (hnd : (s.branches.map Prod.fst).Nodup)
    (hmain : hasBranch s.branches "main" = true)
    (h : (checkout_pr args s).2 = .ok s1) :
    (checkout_pr args s1).2 = .ok s1 := by
  obtain ⟨c, hlk, hs1⟩ := checkout_pr_ok_elim h
  have hmain2 : s1.head = "main" ∨ hasBranch s1.branches "main" = true := by
    refine Or.inr ?_
    rw [hs1]
    show hasBranch (setBranch (deleteBranch s.branches args.branch_name)
      args.branch_name c) "main" = true
    by_cases hb : args.branch_name = "main"
    · rw [← hb]
      exact hasBranch_setBranch_self _ _ _
    · have hne : "main" ≠ args.branch_name := fun hme => hb hme.symm
      rw [hasBranch_setBranch_ne hne, hasBranch_deleteBranch_ne hne]
      exact hmain
  have hlk2 : lookupRemote s1.remote args.pr_nr = some c := by rw [hs1]; exact hlk
  rw [checkout_pr_run hmain2 hlk2, hs1]
  dsimp only
  rw [setBranch_deleteBranch_idem s.branches args.branch_name c hnd]

@[simp] lemma hasFile_nil (p : String) : hasFile [] p = false := rfl

@[simp] lemma hasFile_cons (f : String × Nat) (rest : List (String × Nat)) (p : String) :
    hasFile (f :: rest) p = ((f.1 == p) || hasFile rest p) := rfl

lemma hasFile_append (t1 t2 : List (String × Nat)) (p : String) :
    hasFile (t1 ++ t2) p = (hasFile t1 p || hasFile t2 p) := by
  simp [hasFile, List.any_append]

lemma setFile_of_not_hasFile {tgt : List (String × Nat)} {p : String} (c : Nat)
    (h : hasFile tgt p = false) : setFile tgt p c = tgt ++ [(p, c)] := by
  induction tgt with
  | nil => rfl
  | cons f rest ih =>
    rw [hasFile_cons, Bool.or_eq_false_iff] at h
    simp [setFile, h.1, ih h.2]

lemma copyFiles_fresh : ∀ (l : List SrcEntry) (tgt : List (String × Nat)),
    ((l.filter (fun e => e.isFile)).map SrcEntry.path).Nodup →
    (∀ e ∈ l, e.isFile = true → hasFile tgt e.path = false) →
    copyFiles l tgt =
      tgt ++ (l.filter (fun e => e.isFile)).map (fun e => (e.path, e.content)) := by
  intro l
  induction l with
  | nil => intro tgt _ _; simp [copyFiles]
  | cons e rest ih =>
    intro tgt hnd hfresh
    cases hf : e.isFile with
    | false =>
      have hfil : (e :: rest).filter (fun x => x.isFile) = rest.filter (fun x => x.isFile) :=
        List.filter_cons_of_neg (by simp [hf])
      rw [hfil] at hnd
      simp only [copyFiles, hf, Bool.false_eq_true, if_false, hfil]
      exact ih tgt hnd (fun x hx hxf => hfresh x (List.mem_cons_of_mem e hx) hxf)
    | true =>
      have hfe : hasFile tgt e.path = false := hfresh e (List.mem_cons_self e rest) hf
      have hfil : (e :: rest).filter (fun x => x.isFile) = e :: rest.filter (fun x => x.isFile) :=
        List.filter_cons_of_pos (by simp [hf])
      rw [hfil, List.map_cons, List.nodup_cons] at hnd
      have hfresh2 : ∀ x ∈ rest, x.isFile = true →
          hasFile (tgt ++ [(e.path, e.content)]) x.path = false := by
        intro x hx hxf
        rw [hasFile_append, Bool.or_eq_false_iff]
        refine ⟨hfresh x (List.mem_cons_of_mem e hx) hxf, ?_⟩
        simp only [hasFile_cons, hasFile_nil, Bool.or_false]
        rw [beq_eq_false_iff_ne]
        intro hpe
        exact hnd.1 (List.mem_map.mpr ⟨x, List.mem_filter.mpr ⟨hx, by simp [hxf]⟩, hpe.symm⟩)
      simp only [copyFiles, hf, if_true, hfil, List.map_cons]
      rw [setFile_of_not_hasFile e.content hfe, ih (tgt ++ [(e.path, e.content)]) hnd.2 hfresh2]
      simp

lemma mem_copyFiles (l : List SrcEntry)
    (hnd : ((l.filter (fun e => e.isFile)).map SrcEntry.path).Nodup) (p : String) (c : Nat) :
    (p, c) ∈ copyFiles l [] ↔ ∃ e ∈ l, e.isFile = true ∧ e.path = p ∧ e.content = c := by
  rw [copyFiles_fresh l [] hnd (fun x _ _ => rfl)]
  simp only [List.nil_append, List.mem_map, List.mem_filter]
  constructor
  · rintro ⟨e, ⟨hel, hef⟩, heq⟩
    obtain ⟨hp, hc⟩ := Prod.mk.injEq _ _ _ _ ▸ heq
    exact ⟨e, hel, by simpa using hef, hp, hc⟩
  · rintro ⟨e, hel, hef, hp, hc⟩
    exact ⟨e, ⟨hel, by simpa using hef⟩, by rw [hp, hc]⟩

lemma buildExcludes_ok {valid : String → Bool} :
    ∀ {l pats : List String}, buildExcludes valid l = .ok pats → pats = l.map trimDotSlash := by
  intro l
  induction l with
  | nil =>
    intro pats h
    simpa [buildExcludes] using (Except.ok.inj h).symm
  | cons e rest ih =>
    intro pats h
    simp only [buildExcludes] at h
    by_cases hb : startsWithBang e = true
    · rw [if_pos hb] at h; simp at h
    · rw [if_neg hb] at h
      by_cases hv : valid (trimDotSlash e) = true
      · rw [if_pos hv] at h
        cases hrec : buildExcludes valid rest with
        | error err => rw [hrec] at h; simp at h
        | ok pats2 =>
          rw [hrec] at h
          rw [List.map_cons, ← ih hrec]
          exact (Except.ok.inj h).symm
      · rw [if_neg hv] at h; simp at h

lemma buildExcludes_error_of_bang (valid : String → Bool) :
    ∀ {l : List String}, (∃ e ∈ l, startsWithBang e = true) →
      ∃ err, buildExcludes valid l = .error err := by
  intro l
  induction l with
  | nil => rintro ⟨e, he, -⟩; cases he
  | cons a rest ih =>
    rintro ⟨e, he, hbang⟩
    by_cases ha : startsWithBang a = true
    · exact ⟨.invalidExcludePattern, by simp only [buildExcludes]; rw [if_pos ha]⟩
    · rcases List.mem_cons.mp he with rfl | he2
      · exact absurd hbang ha
      · by_cases hv : valid (trimDotSlash a) = true
        · obtain ⟨err, herr⟩ := ih ⟨e, he2, hbang⟩
          exact ⟨err, by simp only [buildExcludes]; rw [if_neg ha, if_pos hv, herr]⟩
        · exact ⟨.invalidGlob, by simp only [buildExcludes]; rw [if_neg ha, if_neg hv]⟩

lemma excludedPath_map_trim (m : String → String → Bool) (l : List String) (path : String) :
    excludedPath m (l.map trimDotSlash) path = excludedBy m l path := by
  rw [excludedPath, excludedBy, List.any_map]
  rfl

/-- C1 (amended): when installation succeeds, the target tree holds exactly
the regular files of the source package directory that survive the walk's
default standard filters (hidden entries, ignore-file rules) and are not
matched by any manifest exclude glob, under the same relative paths with
identical contents, and nothing else. -/
theorem install_tree_exact (m : String → String → Bool)
    (ign : String → Bool) (valid : String → Bool)
    (manifestFile : Option (Option Manifest)) (entries : List SrcEntry)
    (prior : Option (List (String × Nat))) (tgt : List (String × Nat)) (man : Manifest)
    (hnd : ((entries.filter (fun e => e.isFile)).map SrcEntry.path).Nodup)
    (h : install_package m ign valid manifestFile entries prior = (some tgt, .ok man)) :
    ∀ p c, (p, c) ∈ tgt ↔
      ∃ e ∈ entries, e.isFile = true ∧ hiddenPath e.path = false ∧ ign e.path = false ∧
        excludedBy m man.exclude e.path = false ∧ e.path = p ∧ e.content = c := by
  match manifestFile with
  | none => simp [install_package, Prod.ext_iff] at h
  | some none => simp [install_package, Prod.ext_iff] at h
  | some (some man2) =>
    rw [install_package] at h
    cases hbe : buildExcludes valid man2.exclude with
    | error err => rw [hbe] at h; simp [Prod.ext_iff] at h
    | ok pats =>
      rw [hbe] at h
      injection h with h1 h2
      have hman : man2 = man := Except.ok.inj h2
      subst hman
      have htgt : tgt = copyFiles (walkEntries m ign pats entries) [] :=
        (Option.some.inj h1).symm
      subst htgt
      have hpats : pats = man2.exclude.map trimDotSlash := buildExcludes_ok hbe
      have hsub : List.Sublist
          (((walkEntries m ign pats entries).filter (fun e => e.isFile)).map SrcEntry.path)
          ((entries.filter (fun e => e.isFile)).map SrcEntry.path) :=
        (((List.filter_sublist entries).filter _).map _)
      have hndw := hnd.sublist hsub
      intro p c
      rw [mem_copyFiles _ hndw p c]
      constructor
      · rintro ⟨e, hew, hef, hp, hc⟩
        rw [walkEntries, List.mem_filter] at hew
        have hq := hew.2
        simp only [Bool.and_eq_true, Bool.not_eq_true'] at hq
        refine ⟨e, hew.1, hef, hq.1.1, hq.1.2, ?_, hp, hc⟩
        have hx := hq.2
        rw [hpats, excludedPath_map_trim] at hx
        exact hx
      · rintro ⟨e, hee, hef, hhid, hign, hexc, hp, hc⟩
        refine ⟨e, ?_, hef, hp, hc⟩
        rw [walkEntries, List.mem_filter]
        refine ⟨hee, ?_⟩
        rw [← excludedPath_map_trim m man2.exclude, ← hpats] at hexc
        simp [hexc, hhid, hign]

/-- C1 counterexample: with no exclude globs in the manifest at all, a
successful install still omits a hidden regular file — the walk's default
standard filters skip it — so the installed tree is not exactly the set of
non-excluded regular files. -/
theorem install_skips_hidden_file :
    install_package (fun _ _ => false) (fun _ => false) (fun _ => true)
        (some (some ⟨[], none⟩)) [⟨"a.txt", true, 1⟩, ⟨".hidden", true, 2⟩] none =
      (some [("a.txt", 1)], .ok ⟨[], none⟩) ∧
      (⟨".hidden", true, 2⟩ : SrcEntry).isFile = true ∧
      excludedBy (fun _ _ => false) (Manifest.mk [] none).exclude ".hidden" = false ∧
      (".hidden", (2 : Nat)) ∉ ([("a.txt", 1)] : List (String × Nat)) :=
  ⟨by decide, by decide, by decide, by decide⟩

/-- C3: a manifest with an exclude pattern starting with `!` makes
installation fail before the existing target is removed and before any file
is copied: the target tree is left exactly as it was. -/
theorem install_rejects_negated_excludes (m : String → String → Bool) (ign : String → Bool)
    (valid : String → Bool) (man : Manifest) (entries : List SrcEntry)
    (prior : Option (List (String × Nat)))
    (hneg : ∃ e ∈ man.exclude, startsWithBang e = true) :
    (install_package m ign valid (some (some man)) entries prior).1 = prior ∧
      ∃ err, (install_package m ign valid (some (some man)) entries prior).2 = .error err := by
  obtain ⟨err, herr⟩ := buildExcludes_error_of_bang valid hneg
  constructor
  · rw [install_package, herr]
  · exact ⟨err, by rw [install_package, herr]⟩

/-- C7: a successful installation fully replaces any prior target tree; the
result does not depend on what was installed before. -/
theorem install_replaces_prior (m : String → String → Bool) (ign : String → Bool)
    (valid : String → Bool) (manifestFile : Option (Option Manifest)) (entries : List SrcEntry)
    (p1 p2 : Option (List (String × Nat))) (tgt : List (String × Nat)) (man : Manifest)
    (h : install_package m ign valid manifestFile entries p1 = (some tgt, .ok man)) :
    install_package m ign valid manifestFile entries p2 = (some tgt, .ok man) := by
  match manifestFile with
  | none => simp [install_package, Prod.ext_iff] at h
  | some none => simp [install_package, Prod.ext_iff] at h
  | some (some man2) =>
    rw [install_package] at h ⊢
    cases hbe : buildExcludes valid man2.exclude with
    | error err => rw [hbe] at h; simp [Prod.ext_iff] at h
    | ok pats => rw [hbe] at h; exact h

lemma testLoop_trace (tst : Package → Manifest → Except String Unit) :
    ∀ (pairs : List (Package × Manifest)) (res : Except String Unit),
      (testLoop tst pairs res).1 = pairs.map (fun pm => (pm.1, tst pm.1 pm.2)) := by
  intro pairs
  induction pairs with
  | nil => intro res; rfl
  | cons pm rest ih =>
    intro res
    obtain ⟨p, man⟩ := pm
    simp only [testLoop, List.map_cons]
    rw [ih]

lemma testLoop_latch (tst : Package → Manifest → Except String Unit) :
    ∀ (pairs : List (Package × Manifest)) (e : String),
      (testLoop tst pairs (.error e)).2 = .error e := by
  intro pairs
  induction pairs with
  | nil => intro e; rfl
  | cons pm rest ih =>
    intro e
    obtain ⟨p, man⟩ := pm
    simp only [testLoop, Except.isOk, Except.toBool, Bool.false_eq_true, if_false]
    exact ih e

lemma testLoop_firstErr (tst : Package → Manifest → Except String Unit) :
    ∀ pairs : List (Package × Manifest),
      (testLoop tst pairs (.ok ())).2 = firstErr (pairs.map (fun pm => tst pm.1 pm.2)) := by
  intro pairs
  induction pairs with
  | nil => rfl
  | cons pm rest ih =>
    obtain ⟨p, man⟩ := pm
    simp only [testLoop, List.map_cons]
    cases hr : tst p man with
    | ok u =>
      obtain ⟨⟩ := u
      simpa [firstErr, Except.isOk, Except.toBool] using ih
    | error e =>
      simp only [firstErr, Except.isOk, Except.toBool, if_true]
      exact testLoop_latch tst rest e

/-- C6: in the test phase every (package, manifest) pair is tested, in input
order, regardless of earlier failures, and the phase's final result is the
first failure encountered (`.ok ()` iff every test succeeds). -/
theorem test_phase_runs_all_and_latches_first_failure
    (tst : Package → Manifest → Except String Unit) (pairs : List (Package × Manifest)) :
    (testLoop tst pairs (.ok ())).1 = pairs.map (fun pm => (pm.1, tst pm.1 pm.2)) ∧
      (testLoop tst pairs (.ok ())).2 = firstErr (pairs.map (fun pm => tst pm.1 pm.2)) :=
  ⟨testLoop_trace tst pairs (.ok ()), testLoop_firstErr tst pairs⟩

/-- C8: the install phase attempts packages sequentially in input order; the
first failing package aborts the phase, later packages are not attempted, and
the first error becomes the result of the whole install-and-test run. -/
theorem install_phase_stops_at_first_failure
    (inst : Package → Except String Manifest) (tst : Package → Manifest → Except String Unit)
    (pre post : List Package) (p : Package) (e : String)
    (hpre : ∀ q ∈ pre, ∃ man, inst q = .ok man)
    (hp : inst p = .error e) :
    installPhase inst (pre ++ p :: post) = (pre ++ [p], .error e) ∧
      runInstallTest inst tst (pre ++ p :: post) = .error e := by
  have hmain : installPhase inst (pre ++ p :: post) = (pre ++ [p], .error e) := by
    induction pre with
    | nil => simp only [List.nil_append, installPhase, hp]
    | cons q pre2 ih =>
      obtain ⟨man, hq⟩ := hpre q (List.mem_cons_self q pre2)
      have ih2 := ih (fun x hx => hpre x (List.mem_cons_of_mem q hx))
      simp only [List.cons_append, installPhase, hq, List.append_eq]
      rw [ih2]
  refine ⟨hmain, ?_⟩
  rw [runInstallTest, hmain]

lemma stripHash_eq_none {s : String} (h : s.data.head? ≠ some '#') : stripHash s = none := by
  rw [stripHash]
  cases hs : s.data with
  | nil => rfl
  | cons c r =>
    rw [hs] at h
    have hc : ¬c = '#' := fun hcc => h (by rw [List.head?_cons, hcc])
    simp [hc]

/-- C5: the documented token sequence parses to the expected packages and PR
number; the empty argument list is rejected; and any argument list whose final
token does not start with `#` is rejected. -/
theorem parse_args_grammar :
    parse_args ["foo:1.0.0,", "and", "bar:2.0.0", "#42"] =
        .ok ⟨[⟨"foo", "1.0.0"⟩, ⟨"bar", "2.0.0"⟩], 42⟩ ∧
      (∃ err, parse_args [] = .error err) ∧
      ∀ (args : List String) (last : String), args.getLast? = some last →
        last.data.head? ≠ some '#' → ∃ err, parse_args args = .error err := by
  refine ⟨by decide, ⟨"expected at least one package and the PR number", by decide⟩, ?_⟩
  intro args last hlast hhash
  by_cases hlen : args.length < 2
  · exact ⟨_, by rw [parse_args, if_pos hlen]⟩
  · have hrev : args.reverse.head? = some last := by
      rw [List.head?_reverse]
      exact hlast
    cases hr : args.reverse with
    | nil => rw [hr] at hrev; cases hrev
    | cons h t =>
      rw [hr] at hrev
      have hh : h = last := by simpa using hrev
      subst hh
      refine ⟨"PR number must start with `#` - `" ++ h ++ "`", ?_⟩
      rw [parse_args, if_neg hlen, hr]
      dsimp only
      rw [stripHash_eq_none hhash]

/-- C10: edge cases the spec's grammar does not mention: a PR token `#0` (any
u32-sized numeral, zero included) parses successfully, and package tokens
with an empty name or empty version part are accepted. -/
theorem parse_args_edge_cases :
    parse_args ["foo:1.0.0", "#0"] = .ok ⟨[⟨"foo", "1.0.0"⟩], 0⟩ ∧
      parse_args [":1.0.0", "#7"] = .ok ⟨[⟨"", "1.0.0"⟩], 7⟩ ∧
      parse_args ["foo:", "#7"] = .ok ⟨[⟨"foo", ""⟩], 7⟩ ∧
      ∀ (s : String) (n : Nat), s.data ≠ [] → s.data.all Char.isDigit = true →
        s.data.foldl decValFold 0 = n → n < 4294967296 →
        parse_args ["pkg:1.2.3", "#" ++ s] = .ok ⟨[⟨"pkg", "1.2.3"⟩], n⟩ := by
  refine ⟨by decide, by decide, by decide, ?_⟩
  intro s n hne hdig hval hlt
  have hstrip : stripHash ("#" ++ s) = some s := by
    rw [stripHash]
    rw [show ("#" ++ s).data = '#' :: s.data from by rw [String.data_append]; rfl]
    simp only [if_pos rfl]
    exact congrArg some (String.ext rfl)
  have hu32 : parseU32 s = some n := by
    rw [parseU32]
    cases hs : s.data with
    | nil => exact absurd hs hne
    | cons c r =>
      have hcd : c.isDigit = true := by
        rw [hs] at hdig
        exact List.all_eq_true.mp hdig c (List.mem_cons_self c r)
      have hcp : ¬c = '+' := by
        intro hcc
        rw [hcc] at hcd
        exact absurd hcd (by decide)
      rw [hs] at hdig hval
      dsimp only
      rw [if_neg hcp, if_neg (by simp : ¬(c :: r = ([] : List Char))), if_pos hdig]
      rw [hval, if_pos hlt]
  have hrev : (["pkg:1.2.3", "#" ++ s] : List String).reverse = ["#" ++ s, "pkg:1.2.3"] := by
    rfl
  have hpkgs : parsePkgTokens ["pkg:1.2.3"] = .ok [⟨"pkg", "1.2.3"⟩] := by decide
  rw [parse_args, if_neg (by simp), hrev]
  dsimp only
  rw [hstrip]
  dsimp only
  rw [hu32]
  dsimp only
  rw [show (["pkg:1.2.3"] : List String).reverse = ["pkg:1.2.3"] from rfl, hpkgs]

/-- C4 counterexample: two sessions with the same PR number whose package
lists differ produce the same branch identifier, so the map from (package
list, PR number) to the branch name is not injective. -/
theorem branch_name_collision :
    Args.branch_name ⟨[⟨"a", "b_c"⟩], 1⟩ = Args.branch_name ⟨[⟨"a_b", "c"⟩], 1⟩ ∧
      ([⟨"a", "b_c"⟩] : List Package) ≠ [⟨"a_b", "c"⟩] :=
  ⟨by decide, by decide⟩

/-- C4 (amended): the branch identifier is injective in the PR number:
sessions with different PR numbers always get different identifiers. (It is
not injective in the package list when names or versions contain the
separator characters.) -/
theorem branch_name_pr_injective (a1 a2 : Args) (h : a1.pr_nr ≠ a2.pr_nr) :
    a1.branch_name ≠ a2.branch_name :=
  fun he => h (branch_name_eq_pr_eq he)

theorem branch_name_pr_injective_witness :
    (Args.mk [⟨"foo", "1.0.0"⟩] 12).pr_nr ≠ (Args.mk [⟨"foo", "1.0.0"⟩] 13).pr_nr ∧
      Args.branch_name ⟨[⟨"foo", "1.0.0"⟩], 12⟩ ≠ Args.branch_name ⟨[⟨"foo", "1.0.0"⟩], 13⟩ :=
  ⟨by decide, branch_name_pr_injective ⟨[⟨"foo", "1.0.0"⟩], 12⟩ ⟨[⟨"foo", "1.0.0"⟩], 13⟩
    (by decide)⟩

theorem checkout_pr_idempotent_witness :
    (([("main", 3)] : List (String × Commit)).map Prod.fst).Nodup ∧
      hasBranch [("main", 3)] "main" = true ∧
      (checkout_pr ⟨[⟨"foo", "1.0.0"⟩], 5⟩ ⟨"refs/heads/main", [("main", 3)], [(5, 7)]⟩).2 =
        .ok ⟨"refs/heads/foo_1.0.0_#5", [("main", 3), ("foo_1.0.0_#5", 7)], [(5, 7)]⟩ ∧
      (checkout_pr ⟨[⟨"foo", "1.0.0"⟩], 5⟩
          ⟨"refs/heads/foo_1.0.0_#5", [("main", 3), ("foo_1.0.0_#5", 7)], [(5, 7)]⟩).2 =
        .ok ⟨"refs/heads/foo_1.0.0_#5", [("main", 3), ("foo_1.0.0_#5", 7)], [(5, 7)]⟩ :=
  ⟨by decide, by decide, by decide,
    checkout_pr_idempotent ⟨[⟨"foo", "1.0.0"⟩], 5⟩
      ⟨"refs/heads/main", [("main", 3)], [(5, 7)]⟩
      ⟨"refs/heads/foo_1.0.0_#5", [("main", 3), ("foo_1.0.0_#5", 7)], [(5, 7)]⟩
      (by decide) (by decide) (by decide)⟩

theorem install_tree_exact_witness :
    ((([⟨"typst.toml", true, 1⟩, ⟨"skip.txt", true, 2⟩,
          ⟨"assets", false, 0⟩] : List SrcEntry).filter (fun e => e.isFile)).map
        SrcEntry.path).Nodup ∧
      install_package (fun pat path => pat == path) (fun p => p == "ignored.txt")
          (fun _ => true) (some (some ⟨["./skip.txt"], none⟩))
          [⟨"typst.toml", true, 1⟩, ⟨"skip.txt", true, 2⟩, ⟨"assets", false, 0⟩]
          (some [("stale.txt", 9)]) =
        (some [("typst.toml", 1)], .ok ⟨["./skip.txt"], none⟩) ∧
      (("typst.toml", 1) ∈ ([("typst.toml", 1)] : List (String × Nat)) ↔
        ∃ e ∈ ([⟨"typst.toml", true, 1⟩, ⟨"skip.txt", true, 2⟩,
            ⟨"assets", false, 0⟩] : List SrcEntry),
          e.isFile = true ∧ hiddenPath e.path = false ∧ (e.path == "ignored.txt") = false ∧
            excludedBy (fun pat path => pat == path) ["./skip.txt"] e.path = false ∧
            e.path = "typst.toml" ∧ e.content = 1) :=
  ⟨by decide, by decide,
    install_tree_exact (fun pat path => pat == path) (fun p => p == "ignored.txt")
      (fun _ => true) (some (some ⟨["./skip.txt"], none⟩))
      [⟨"typst.toml", true, 1⟩, ⟨"skip.txt", true, 2⟩, ⟨"assets", false, 0⟩]
      (some [("stale.txt", 9)]) [("typst.toml", 1)] ⟨["./skip.txt"], none⟩
      (by decide) (by decide) "typst.toml" 1⟩

theorem install_rejects_negated_excludes_witness :
    (∃ e ∈ (["!foo"] : List String), startsWithBang e = true) ∧
      (install_package (fun _ _ => false) (fun _ => false) (fun _ => true)
          (some (some ⟨["!foo"], none⟩)) [⟨"a.txt", true, 1⟩]
          (some [("old.txt", 9)])).1 = some [("old.txt", 9)] ∧
      ∃ err, (install_package (fun _ _ => false) (fun _ => false) (fun _ => true)
          (some (some ⟨["!foo"], none⟩)) [⟨"a.txt", true, 1⟩]
          (some [("old.txt", 9)])).2 = .error err :=
  ⟨by decide,
    (install_rejects_negated_excludes (fun _ _ => false) (fun _ => false) (fun _ => true)
      ⟨["!foo"], none⟩ [⟨"a.txt", true, 1⟩] (some [("old.txt", 9)]) (by decide)).1,
    (install_rejects_negated_excludes (fun _ _ => false) (fun _ => false) (fun _ => true)
      ⟨["!foo"], none⟩ [⟨"a.txt", true, 1⟩] (some [("old.txt", 9)]) (by decide)).2⟩

theorem install_replaces_prior_witness :
    install_package (fun _ _ => false) (fun _ => false) (fun _ => true)
        (some (some ⟨[], none⟩)) [⟨"a.txt", true, 5⟩] (some [("stale", 9)]) =
      (some [("a.txt", 5)], .ok ⟨[], none⟩) ∧
      install_package (fun _ _ => false) (fun _ => false) (fun _ => true)
        (some (some ⟨[], none⟩)) [⟨"a.txt", true, 5⟩] none =
      (some [("a.txt", 5)], .ok ⟨[], none⟩) :=
  ⟨by decide,
    install_replaces_prior (fun _ _ => false) (fun _ => false) (fun _ => true)
      (some (some ⟨[], none⟩)) [⟨"a.txt", true, 5⟩] (some [("stale", 9)]) none
      [("a.txt", 5)] ⟨[], none⟩ (by decide)⟩

theorem install_phase_stops_witness :
    (∀ q ∈ ([⟨"a", "1"⟩] : List Package),
        ∃ man, (if q.name == "bad" then (.error "boom" : Except String Manifest)
          else .ok ⟨[], none⟩) = .ok man) ∧
      (if (⟨"bad", "1"⟩ : Package).name == "bad" then (.error "boom" : Except String Manifest)
          else .ok ⟨[], none⟩) = .error "boom" ∧
      installPhase (fun q => if q.name == "bad" then .error "boom" else .ok ⟨[], none⟩)
          ([⟨"a", "1"⟩] ++ ⟨"bad", "1"⟩ :: [⟨"c", "1"⟩]) =
        ([⟨"a", "1"⟩] ++ [⟨"bad", "1"⟩], .error "boom") ∧
      runInstallTest (fun q => if q.name == "bad" then .error "boom" else .ok ⟨[], none⟩)
          (fun _ _ => .ok ()) ([⟨"a", "1"⟩] ++ ⟨"bad", "1"⟩ :: [⟨"c", "1"⟩]) = .error "boom" := by
  have hth := install_phase_stops_at_first_failure
    (fun q => if q.name == "bad" then .error "boom" else .ok ⟨[], none⟩)
    (fun _ _ => .ok ()) [⟨"a", "1"⟩] [⟨"c", "1"⟩] ⟨"bad", "1"⟩ "boom"
    (by
      intro q hq
      rw [List.mem_singleton] at hq
      subst hq
      exact ⟨⟨[], none⟩, by decide⟩)
    (by decide)
  refine ⟨?_, by decide, hth.1, hth.2⟩
  intro q hq
  rw [List.mem_singleton] at hq
  subst hq
  exact ⟨⟨[], none⟩, by decide⟩

theorem parse_args_grammar_witness :
    (["foo:1.0.0", "42"] : List String).getLast? = some "42" ∧
      ("42" : String).data.head? ≠ some '#' ∧
      ∃ err, parse_args ["foo:1.0.0", "42"] = .error err :=
  ⟨by decide, by decide,
    parse_args_grammar.2.2 ["foo:1.0.0", "42"] "42" (by decide) (by decide)⟩

theorem parse_args_edge_cases_witness :
    ("0" : String).data ≠ [] ∧ ("0" : String).data.all Char.isDigit = true ∧
      ("0" : String).data.foldl decValFold 0 = 0 ∧ (0 : Nat) < 4294967296 ∧
      parse_args ["pkg:1.2.3", "#" ++ "0"] = .ok ⟨[⟨"pkg", "1.2.3"⟩], 0⟩ :=
  ⟨by decide, by decide, by decide, by decide,
    parse_args_edge_cases.2.2.2 "0" 0 (by decide) (by decide) (by decide) (by decide)⟩

end Review
